import Mathlib

/-!
Verification of the constraint model and the constrained random ordering
engine of the story-shuffler application (`src/app.rs`).

The Rust source is shallowly embedded:

* `Constraints` mirrors the Rust struct `Constraints` field for field
  (only the data fields; UI-only rendering state is irrelevant here).
* petgraph's `DiGraph<usize, (), usize>` is embedded as `Graph`: the app
  creates the nodes `0 .. count-1` up front (node `i` carrying weight
  `i + 1`) and never removes nodes before `shuffle`, so a node count plus
  a duplicate-free edge list over zero-based node indices is a faithful
  representation.  petgraph's `update_edge` inserts an edge only when it
  is absent (the edge weight `()` carries no information), which
  `update_edge` below reproduces.
* `usize` values are embedded as `Nat`; the only `usize` subtleties the
  claims touch (the `- 1` adjustments) occur on values the program
  guarantees positive, noted where they arise.
-/

/-- Embedding of the Rust struct `Constraints` (src/app.rs): per-section
constraint record.  `before` holds one-based section references. -/
structure Constraints where
  fixed : Bool
  before : List Nat
  text_buffer : String
  text_buffer_is_valid : Bool
  paradox_error : Option String
deriving Repr, DecidableEq

/-- Embedding of `impl Default for Constraints` (src/app.rs). -/
instance : Inhabited Constraints :=
  ⟨{ fixed := false, before := [], text_buffer := "",
     text_buffer_is_valid := true, paradox_error := none }⟩

/-- Embedding of petgraph's `DiGraph<usize, (), usize>` as the app uses it:
nodes are the indices `0 .. nodeCount - 1` (node `i` carries weight `i + 1`),
and `edges` is the duplicate-free list of directed edges over node
indices. -/
structure Graph where
  nodeCount : Nat
  edges : List (Nat × Nat)
deriving Repr, DecidableEq

/-- Embedding of petgraph's `Graph::update_edge` for the unit edge weight:
add the edge only when it is not already present. -/
def update_edge (g : Graph) (u v : Nat) : Graph :=
  if (u, v) ∈ g.edges then g
  else { g with edges := g.edges ++ [(u, v)] }

/-- Insert a batch of edges in order via `update_edge`. -/
def add_edges (g : Graph) (ps : List (Nat × Nat)) : Graph :=
  ps.foldl (fun g p => update_edge g p.1 p.2) g
/-- One iteration of `compute_graph`'s edge loop, for the enumerated pair
`(index, c)`: the fixed-first edges, then the fixed-last edges, then the
`before` edges, exactly as in the Rust loop body. -/
def graph_step (count : Nat) (lastFixed : Bool) (g : Graph)
    (ic : Nat × Constraints) : Graph :=
  let g :=
    if ic.1 = 0 ∧ ic.2.fixed then
      add_edges g (((List.range count).drop 1).map fun succ => (ic.1, succ))
    else g
  let g :=
    if ic.1 = count - 1 ∧ lastFixed then
      add_edges g (((List.range count).take (count - 1)).map fun pred => (pred, ic.1))
    else g
  add_edges g (ic.2.before.map fun succ => (ic.1, succ - 1))

/-- Embedding of `compute_graph` (src/app.rs): build the precedence graph
from the constraint list.  Nodes `0 .. count-1` are created up front; then,
for each `(index, c)` in order: the fixed-first edges (when `index == 0`
and `c.fixed`), the fixed-last edges (when `index == count - 1` and the
last constraint is fixed), and one edge `(index, r - 1)` per one-based
reference `r` in `c.before`.  The Rust code targets `NodeIndex::new(r - 1)`
with `usize` arithmetic; references are expected to be in range (`1 ≤ r ≤
count`), which cannot be assumed here and is the subject of claim C3. -/
def compute_graph (constraints : List Constraints) : Graph :=
  let count := constraints.length
  if count = 0 then { nodeCount := 0, edges := [] }
  else
    constraints.enum.foldl
      (graph_step count (constraints.getLastD default).fixed)
      { nodeCount := count, edges := [] }

/-- The edge pairs a single iteration of `compute_graph`'s edge loop
contributes for the enumerated pair `(index, c)`. -/
def step_pairs (count : Nat) (lastFixed : Bool) (index : Nat) (c : Constraints) :
    List (Nat × Nat) :=
  (if index = 0 ∧ c.fixed then
      ((List.range count).drop 1).map fun succ => (index, succ)
    else [])
  ++ (if index = count - 1 ∧ lastFixed then
      ((List.range count).take (count - 1)).map fun pred => (pred, index)
    else [])
  ++ c.before.map fun succ => (index, succ - 1)

/-- Wellformedness of an edge list over `nodeCount` vertices: every edge
joins existing nodes.  petgraph guarantees this for any graph it hands
out; the Rust `update_edge` panics on an out-of-bounds `NodeIndex`. -/
def Graph.WF (g : Graph) : Prop :=
  ∀ e ∈ g.edges, e.1 < g.nodeCount ∧ e.2 < g.nodeCount

instance (g : Graph) : Decidable g.WF :=
  List.decidableBAll _ g.edges

/-- Boolean test that consecutive entries of a path are all edges of `g`. -/
def edge_chain (g : Graph) : List Nat → Bool
  | [] => true
  | [_] => true
  | a :: b :: rest => decide ((a, b) ∈ g.edges) && edge_chain g (b :: rest)

/-- All duplicate-free lists of vertices of `g` (in some enumeration
order); used to enumerate candidate simple cycles. -/
def nodup_vertex_lists (g : Graph) : List (List Nat) :=
  (List.range g.nodeCount).sublists.flatMap List.permutations'

/-- Modelled from the spec: the body of `find_cycle` (src/app.rs) calls
petgraph's `all_simple_paths(graph, index, index, 0, None)`, a library
function whose source is not part of this repository.  Spec §4.2 gives its
contract: return the set of all simple directed cycles through the given
vertex — paths of length ≥ 1 that start and end at it, visiting no other
vertex twice, a self-loop counting as a cycle of length 1.  The
enumeration below returns exactly those cycles, each rendered the way the
Rust function documents its result: a vertex list that begins and ends
with `index`. -/
def find_cycle (g : Graph) (index : Nat) : List (List Nat) :=
  if index < g.nodeCount then
    ((nodup_vertex_lists g).filter fun m =>
        !m.contains index && edge_chain g (index :: m ++ [index])).map
      fun m => index :: m ++ [index]
  else []

/-- A simple directed cycle through `v` in `g`, as spec §4.2 describes it:
at least one edge long, starting and ending at `v`, running along edges of
`g` over existing vertices, and visiting no vertex other than the shared
endpoint twice. -/
def IsSimpleCycleThrough (g : Graph) (v : Nat) (p : List Nat) : Prop :=
  2 ≤ p.length ∧ p.head? = some v ∧ p.getLast? = some v
    ∧ p.dropLast.Nodup ∧ (∀ x ∈ p, x < g.nodeCount)
    ∧ p.Chain' fun a b => (a, b) ∈ g.edges

/-- The edge relation an edge list denotes. -/
def EdgeRel (edges : List (Nat × Nat)) (u v : Nat) : Prop := (u, v) ∈ edges

/-- Cycle-freeness in the standard sense: no nonempty directed walk
returns to its starting vertex. -/
def Acyclic (edges : List (Nat × Nat)) : Prop :=
  ∀ v, ¬ Relation.TransGen (EdgeRel edges) v v

/-- The root filter inside `shuffle` (src/app.rs): live vertices whose
count of incoming still-present edges is zero (petgraph's
`neighbors_directed(index, Incoming).count() == 0`; removing a node
removes its incident edges, which the shuffle state below mirrors). -/
def shuffle_roots (live : List Nat) (edges : List (Nat × Nat)) : List Nat :=
  live.filter fun v => (edges.filter fun e => e.2 = v).isEmpty

/-- The loop of `shuffle` (src/app.rs), with the graph state carried as
the list of live vertices (by original zero-based section index — the
node weight minus one, which is all the Rust loop reads) plus the list of
still-present edges.  `petgraph`'s `remove_node` drops the node and its
incident edges (its internal index renumbering is invisible here because
the loop identifies nodes by weight).  Modelled from the spec: `rand`'s
`shuffle`-then-`first` picks a uniformly random root; the `picks` oracle
stands for the random choices, one entry per loop iteration, each reduced
modulo the current root count.  An empty root set makes the Rust unwrap
panic, modelled as `none`.  The fuel equals the live-vertex count, which
the loop decrements by exactly one per iteration, so fuel never runs out;
the fuel-exhausted-with-live-vertices branch also answers `none`. -/
def shuffle_go (fuel : Nat) (live : List Nat) (edges : List (Nat × Nat))
    (picks : List Nat) : Option (List Nat) :=
  match fuel with
  | 0 => if live.isEmpty then some [] else none
  | fuel + 1 =>
    if live.isEmpty then some []
    else
      let roots := shuffle_roots live edges
      match roots[picks.headD 0 % roots.length]? with
      | none => none
      | some root =>
        (shuffle_go fuel (live.erase root)
            (edges.filter fun e => e.1 ≠ root ∧ e.2 ≠ root) picks.tail).map
          fun rest => root :: rest

/-- Embedding of `shuffle` (src/app.rs): peel off a random root until the
graph is empty, emitting each removed vertex's zero-based section index.
The answered list is the `indices` the Rust function stores in
`shuffled_section_indices` (the accompanying `shuffled` texts are the
pointwise dereference of these indices and carry no extra state). -/
def shuffle (g : Graph) (picks : List Nat) : Option (List Nat) :=
  shuffle_go g.nodeCount (List.range g.nodeCount) g.edges picks

/-- Render the consecutive steps of one cycle, as the inner loop of
`mark_cycles` (src/app.rs) does: starting from `cycle[0]`, each later
entry `step` contributes the line
`"\t§{previous+1} must come before §{step+1}\n"` (indices shown
one-based for the writer audience). -/
def render_steps : List Nat → String
  | [] => ""
  | [_] => ""
  | previous :: step :: rest =>
    "\t§" ++ toString (previous + 1) ++ " must come before §"
      ++ toString (step + 1) ++ "\n" ++ render_steps (step :: rest)

/-- The paradox message `mark_cycles` (src/app.rs) composes for one
vertex: every cycle found there contributes a `"Paradox detected:\n"`
header followed by its rendered steps, all concatenated in order. -/
def render_cycles (cycles : List (List Nat)) : String :=
  cycles.foldl
    (fun error cycle => error ++ "Paradox detected:\n" ++ render_steps cycle)
    ""

/-- Embedding of `mark_cycles` (src/app.rs): build the precedence graph
and, for every vertex in `node_indices` order, set that constraint's
`paradox_error` to the rendered cycles when any exist and clear it
otherwise; answer the updated constraint list (the Rust method mutates
`self.constraints` in place) together with `some graph` when the count of
cycle-carrying vertices is zero, `none` otherwise. -/
def mark_cycles (cs : List Constraints) : List Constraints × Option Graph :=
  let graph := compute_graph cs
  let updated := cs.mapIdx fun index c =>
    let cycles := find_cycle graph index
    if !cycles.isEmpty then
      { c with paradox_error := some (render_cycles cycles) }
    else
      { c with paradox_error := none }
  let cycle_count :=
    ((List.range graph.nodeCount).filter
      fun index => !(find_cycle graph index).isEmpty).length
  (updated, if cycle_count = 0 then some graph else none)

/-- Embedding of `can_shuffle` (src/app.rs): the model is shuffleable when
there are at least two sections and every constraint's text buffer is
lexically valid. -/
def can_shuffle (original_sections : List String)
    (constraints : List Constraints) : Bool :=
  original_sections.length > 1
    && constraints.all fun c => c.text_buffer_is_valid

/-- The Unicode `White_Space` property, as a predicate on the code
point: exactly U+0009..U+000D, U+0020, U+0085, U+00A0, U+1680,
U+2000..U+200A, U+2028, U+2029, U+202F, U+205F and U+3000.  This is what
Rust's `char::is_whitespace` (hence `str::trim`) tests and what the regex
crate's `\s` matches; the set is stable across Unicode versions. -/
def rust_is_whitespace (c : Char) : Bool :=
  decide ((9 ≤ c.toNat ∧ c.toNat ≤ 13) ∨ c.toNat = 32 ∨ c.toNat = 0x85
    ∨ c.toNat = 0xA0 ∨ c.toNat = 0x1680
    ∨ (0x2000 ≤ c.toNat ∧ c.toNat ≤ 0x200A) ∨ c.toNat = 0x2028
    ∨ c.toNat = 0x2029 ∨ c.toNat = 0x202F ∨ c.toNat = 0x205F
    ∨ c.toNat = 0x3000)

/-- Character-level trim, as Rust's `str::trim`: drop Unicode
`White_Space` characters from both ends. -/
def trim_chars (t : List Char) : List Char :=
  ((t.dropWhile rust_is_whitespace).reverse.dropWhile rust_is_whitespace).reverse

/-- Decimal value of a digit string, most significant digit first. -/
def digits_to_nat (t : List Char) : Nat :=
  t.foldl (fun n c => 10 * n + (c.toNat - 48)) 0

/-- `usize::MAX` of the native 64-bit build (`shuffle` also ships a
wasm32 build; see `USIZE_MAX_32`). -/
def USIZE_MAX_64 : Nat := 2 ^ 64 - 1

/-- `usize::MAX` of the wasm32 build (`#[cfg(target_arch = "wasm32")]`
in src/app.rs and src/main.rs). -/
def USIZE_MAX_32 : Nat := 2 ^ 32 - 1

/-- Embedding of `s.trim().parse::<usize>().unwrap_or_default()` from the
edit handler in `scrollable_sections` (src/app.rs): trim is Unicode
`White_Space`; the parse succeeds exactly on a nonempty trimmed token of
ASCII digits whose value fits in `usize` (Rust's integer parse rejects
non-ASCII digits and fails with overflow above `usize::MAX`), and
otherwise `unwrap_or_default` answers 0.  `usizeMax` is the build's
`usize::MAX` (`2^64 - 1` native, `2^32 - 1` wasm32); the accepted chunks
never carry a leading `+`, so the sign handling of Rust's parse is
unreachable here. -/
def parse_usize_or_default (usizeMax : Nat) (t : List Char) : Nat :=
  let d := trim_chars t
  if d ≠ [] ∧ d.all Char.isDigit ∧ digits_to_nat d ≤ usizeMax then
    digits_to_nat d
  else 0

/-- The matcher of `SECTIONS_LIST_PATTERN` (src/app.rs), the regex
`^(?:\s*\d+\s*(?:,\s*\d+\s*)*)?$`, compiled by the regex crate with its
default Unicode classes: `\s` is the `White_Space` set above and `\d` is
`\p{Nd}`, the Unicode decimal-digit class.  `\p{Nd}` depends on the
Unicode tables shipped with the (unpinned) regex crate, so the digit
class is a parameter here; every theorem assumes of it only facts that
hold of `\p{Nd}` in every Unicode version (it is disjoint from
`White_Space` and does not contain the comma).  The pattern's commas are
literal while `\s` and `\d` never match a comma, so a string matches
exactly when it is empty or every comma-separated chunk has the shape
`\s*\d+\s*`, i.e. trims to a nonempty run of `digit` characters. -/
def sections_regex_matches (digit : Char → Bool) (s : List Char) : Bool :=
  s.isEmpty || (s.splitOn ',').all fun t =>
    !(trim_chars t).isEmpty && (trim_chars t).all digit

/-- The `before` parse on an accepted buffer, from `scrollable_sections`
(src/app.rs): split on commas, trim-and-parse every chunk with default 0,
then silently drop the zeros. -/
def parse_sections (usizeMax : Nat) (s : List Char) : List Nat :=
  ((s.splitOn ',').map (parse_usize_or_default usizeMax)).filter
    fun n => n ≠ 0

/-- The validation the edit handler in `scrollable_sections` (src/app.rs)
performs when the buffer changes: on a regex match, mark the constraint
valid and parse `before`; otherwise mark it invalid and clear `before`.
Parameters as above: `digit` is the regex crate's `\d` class, `usizeMax`
the build's `usize::MAX`. -/
def validate_buffer (digit : Char → Bool) (usizeMax : Nat)
    (c : Constraints) (buffer : String) : Constraints :=
  if sections_regex_matches digit buffer.data then
    { c with text_buffer := buffer, text_buffer_is_valid := true,
             before := parse_sections usizeMax buffer.data }
  else
    { c with text_buffer := buffer, text_buffer_is_valid := false,
             before := [] }

/-- The grammar of spec §4.5, as worded: "optionally empty, otherwise a
comma-separated list of decimal positive integers with optional
surrounding whitespace around each integer and around the whole string".
A token is a nonempty run of decimal digits (the regex crate's class,
passed as `digit`) with `White_Space` on either side; literal `0` tokens
belong to the accepted grammar because the same clause prescribes
discarding them as "a no-op reference, not an error". -/
def SpecToken (digit : Char → Bool) (t : List Char) : Prop :=
  ∃ w1 d w2, t = w1 ++ d ++ w2
    ∧ (∀ c ∈ w1, rust_is_whitespace c = true)
    ∧ (∀ c ∈ w2, rust_is_whitespace c = true)
    ∧ d ≠ [] ∧ ∀ c ∈ d, digit c = true

/-- The full grammar of spec §4.5: empty, or comma-separated tokens. -/
def SpecSectionsList (digit : Char → Bool) (s : List Char) : Prop :=
  s = [] ∨ ∃ toks : List (List Char), toks ≠ []
    ∧ s = List.intercalate [','] toks ∧ ∀ t ∈ toks, SpecToken digit t

/-- Fixture: the spec §8 cycle-detection test, two mutually-constrained
sections (`{before:[2]}`, `{before:[1]}`). -/
def pair_cycle_constraints : List Constraints :=
  [{ fixed := false, before := [2], text_buffer := "2",
     text_buffer_is_valid := true, paradox_error := none },
   { fixed := false, before := [1], text_buffer := "1",
     text_buffer_is_valid := true, paradox_error := none }]

/-- Fixture: an acyclic pair, section 1 before section 2. -/
def chain_constraints : List Constraints :=
  [{ fixed := false, before := [2], text_buffer := "2",
     text_buffer_is_valid := true, paradox_error := none },
   { fixed := false, before := [], text_buffer := "",
     text_buffer_is_valid := true, paradox_error := none }]

/-- Fixture: the spec §8 self-reference test, one section whose `before`
names itself. -/
def self_loop_constraints : List Constraints :=
  [{ fixed := false, before := [1], text_buffer := "1",
     text_buffer_is_valid := true, paradox_error := none }]

/-- Fixture: four sections with the first and last pinned. -/
def fixed_four_constraints : List Constraints :=
  [{ fixed := true, before := [], text_buffer := "",
     text_buffer_is_valid := true, paradox_error := none },
   { fixed := false, before := [], text_buffer := "",
     text_buffer_is_valid := true, paradox_error := none },
   { fixed := false, before := [], text_buffer := "",
     text_buffer_is_valid := true, paradox_error := none },
   { fixed := true, before := [], text_buffer := "",
     text_buffer_is_valid := true, paradox_error := none }]

theorem nodeCount_update_edge (g : Graph) (u v : Nat) :
    (update_edge g u v).nodeCount = g.nodeCount := by
  unfold update_edge
  split <;> rfl

theorem mem_update_edge_iff (g : Graph) (u v : Nat) (e : Nat × Nat) :
    e ∈ (update_edge g u v).edges ↔ e ∈ g.edges ∨ e = (u, v) := by
  unfold update_edge
  split
  · rename_i h
    constructor
    · exact Or.inl
    · rintro (h' | rfl)
      · exact h'
      · exact h
  · simp

theorem nodeCount_add_edges (g : Graph) (ps : List (Nat × Nat)) :
    (add_edges g ps).nodeCount = g.nodeCount := by
  induction ps generalizing g with
  | nil => rfl
  | cons p ps ih =>
    simp only [add_edges, List.foldl_cons] at *
    rw [ih, nodeCount_update_edge]

theorem mem_add_edges_iff (g : Graph) (ps : List (Nat × Nat)) (e : Nat × Nat) :
    e ∈ (add_edges g ps).edges ↔ e ∈ g.edges ∨ e ∈ ps := by
  induction ps generalizing g with
  | nil => simp [add_edges]
  | cons p ps ih =>
    simp only [add_edges, List.foldl_cons] at *
    rw [ih, mem_update_edge_iff]
    simp only [List.mem_cons]
    constructor
    · rintro ((h | rfl) | h)
      · exact Or.inl h
      · exact Or.inr (Or.inl rfl)
      · exact Or.inr (Or.inr h)
    · rintro (h | rfl | h)
      · exact Or.inl (Or.inl h)
      · exact Or.inl (Or.inr rfl)
      · exact Or.inr h

theorem graph_step_eq_add_edges (count : Nat) (lastFixed : Bool) (g : Graph)
    (index : Nat) (c : Constraints) :
    graph_step count lastFixed g (index, c)
      = add_edges g (step_pairs count lastFixed index c) := by
  unfold graph_step step_pairs
  dsimp only
  by_cases h0 : index = 0 ∧ c.fixed = true
  · rw [if_pos h0, if_pos h0]
    by_cases h1 : index = count - 1 ∧ lastFixed = true
    · rw [if_pos h1, if_pos h1]
      simp [add_edges, List.foldl_append]
    · rw [if_neg h1, if_neg h1]
      simp [add_edges, List.foldl_append]
  · rw [if_neg h0, if_neg h0]
    by_cases h1 : index = count - 1 ∧ lastFixed = true
    · rw [if_pos h1, if_pos h1]
      simp [add_edges, List.foldl_append]
    · rw [if_neg h1, if_neg h1]
      simp [add_edges, List.foldl_append]

theorem nodeCount_graph_step (count : Nat) (lastFixed : Bool) (g : Graph)
    (ic : Nat × Constraints) :
    (graph_step count lastFixed g ic).nodeCount = g.nodeCount := by
  obtain ⟨index, c⟩ := ic
  rw [graph_step_eq_add_edges, nodeCount_add_edges]

theorem mem_graph_step_iff (count : Nat) (lastFixed : Bool) (g : Graph)
    (index : Nat) (c : Constraints) (e : Nat × Nat) :
    e ∈ (graph_step count lastFixed g (index, c)).edges
    ↔ e ∈ g.edges ∨ e ∈ step_pairs count lastFixed index c := by
  rw [graph_step_eq_add_edges, mem_add_edges_iff]

theorem mem_foldl_graph_step_iff (count : Nat) (lastFixed : Bool)
    (l : List (Nat × Constraints)) (g : Graph) (e : Nat × Nat) :
    e ∈ (l.foldl (graph_step count lastFixed) g).edges
    ↔ e ∈ g.edges ∨ ∃ p ∈ l, e ∈ step_pairs count lastFixed p.1 p.2 := by
  induction l generalizing g with
  | nil => simp
  | cons p l ih =>
    obtain ⟨index, c⟩ := p
    simp only [List.foldl_cons, ih, mem_graph_step_iff, List.mem_cons]
    constructor
    · rintro (((h | h) | ⟨q, hq, hmem⟩))
      · exact Or.inl h
      · exact Or.inr ⟨(index, c), Or.inl rfl, h⟩
      · exact Or.inr ⟨q, Or.inr hq, hmem⟩
    · rintro (h | ⟨q, (rfl | hq), hmem⟩)
      · exact Or.inl (Or.inl h)
      · exact Or.inl (Or.inr hmem)
      · exact Or.inr ⟨q, hq, hmem⟩

theorem nodeCount_compute_graph (cs : List Constraints) :
    (compute_graph cs).nodeCount = cs.length := by
  unfold compute_graph
  dsimp only
  split
  · simp [*]
  · generalize hg : ({ nodeCount := cs.length, edges := [] } : Graph) = g0
    have : g0.nodeCount = cs.length := by rw [← hg]
    clear hg
    induction cs.enum generalizing g0 with
    | nil => simpa
    | cons p l ih =>
      simp only [List.foldl_cons]
      exact ih _ (by rw [nodeCount_graph_step]; exact this)

theorem mem_compute_graph_iff (cs : List Constraints) (e : Nat × Nat) :
    e ∈ (compute_graph cs).edges
    ↔ ∃ i c, cs[i]? = some c
        ∧ e ∈ step_pairs cs.length (cs.getLastD default).fixed i c := by
  unfold compute_graph
  dsimp only
  split
  · rename_i h
    rw [List.length_eq_zero] at h
    subst h
    simp
  · rw [mem_foldl_graph_step_iff]
    constructor
    · rintro (h | ⟨⟨i, c⟩, hp, hmem⟩)
      · exact absurd h (List.not_mem_nil e)
      · exact ⟨i, c, (List.mk_mem_enum_iff_getElem?).mp hp, hmem⟩
    · rintro ⟨i, c, hget, hmem⟩
      exact Or.inr ⟨(i, c), (List.mk_mem_enum_iff_getElem?).mpr hget, hmem⟩

theorem mem_drop_one_range (n v : Nat) :
    v ∈ (List.range n).drop 1 ↔ 1 ≤ v ∧ v < n := by
  cases n with
  | zero => simp
  | succ m =>
    rw [List.range_succ_eq_map]
    simp only [List.drop_succ_cons, List.drop_zero, List.mem_map, List.mem_range]
    constructor
    · rintro ⟨k, hk, rfl⟩
      omega
    · rintro ⟨h1, h2⟩
      exact ⟨v - 1, by omega, by omega⟩

theorem mem_take_pred_range (n u : Nat) :
    u ∈ (List.range n).take (n - 1) ↔ u < n - 1 := by
  rw [List.take_range]
  simp only [List.mem_range]
  omega

theorem mem_step_pairs_iff (count : Nat) (lastFixed : Bool) (index : Nat)
    (c : Constraints) (u v : Nat) :
    (u, v) ∈ step_pairs count lastFixed index c
    ↔ (index = 0 ∧ c.fixed ∧ u = index ∧ 1 ≤ v ∧ v < count)
      ∨ (index = count - 1 ∧ lastFixed ∧ v = index ∧ u < count - 1)
      ∨ (∃ r ∈ c.before, u = index ∧ v = r - 1) := by
  unfold step_pairs
  simp only [List.mem_append, List.mem_ite_nil_right, List.mem_map,
    Prod.mk.injEq]
  constructor
  · rintro ((⟨⟨h0, hf⟩, s, hs, rfl, rfl⟩ | ⟨⟨h1, hl⟩, p, hp, rfl, rfl⟩)
      | ⟨r, hr, rfl, rfl⟩)
    · rw [mem_drop_one_range] at hs
      exact Or.inl ⟨h0, hf, rfl, hs⟩
    · rw [mem_take_pred_range] at hp
      exact Or.inr (Or.inl ⟨h1, hl, rfl, hp⟩)
    · exact Or.inr (Or.inr ⟨r, hr, rfl, rfl⟩)
  · rintro (⟨h0, hf, rfl, hv⟩ | ⟨h1, hl, rfl, hu⟩ | ⟨r, hr, rfl, rfl⟩)
    · exact Or.inl (Or.inl ⟨⟨h0, hf⟩, v, (mem_drop_one_range ..).mpr hv, rfl, rfl⟩)
    · exact Or.inl (Or.inr ⟨⟨h1, hl⟩, u, (mem_take_pred_range ..).mpr hu, rfl, rfl⟩)
    · exact Or.inr ⟨r, hr, rfl, rfl⟩

theorem compute_graph_wf (cs : List Constraints)
    (h : ∀ c ∈ cs, ∀ r ∈ c.before, 1 ≤ r ∧ r ≤ cs.length) :
    (compute_graph cs).WF := by
  intro e he
  rw [nodeCount_compute_graph]
  obtain ⟨u, v⟩ := e
  rw [mem_compute_graph_iff] at he
  obtain ⟨i, c, hget, hmem⟩ := he
  obtain ⟨hi, hgetc⟩ := List.getElem?_eq_some.mp hget
  have hc : c ∈ cs := hgetc ▸ List.getElem_mem hi
  rw [mem_step_pairs_iff] at hmem
  rcases hmem with ⟨rfl, _, rfl, hv1, hv2⟩ | ⟨h1, _, rfl, hu⟩ | ⟨r, hr, rfl, rfl⟩
  · omega
  · omega
  · have := h c hc r hr
    omega

theorem edge_chain_iff (g : Graph) (p : List Nat) :
    edge_chain g p = true ↔ p.Chain' fun a b => (a, b) ∈ g.edges := by
  match p with
  | [] => simp [edge_chain]
  | [a] => simp [edge_chain]
  | a :: b :: rest =>
    rw [edge_chain, List.chain'_cons, Bool.and_eq_true, decide_eq_true_eq,
      edge_chain_iff]

theorem mem_nodup_vertex_lists (g : Graph) (m : List Nat) :
    m ∈ nodup_vertex_lists g ↔ m.Nodup ∧ ∀ x ∈ m, x < g.nodeCount := by
  unfold nodup_vertex_lists
  rw [List.mem_flatMap]
  constructor
  · rintro ⟨s, hs, hm⟩
    rw [List.mem_sublists] at hs
    rw [List.mem_permutations'] at hm
    have hsnd : s.Nodup := hs.nodup (List.nodup_range g.nodeCount)
    refine ⟨hm.nodup_iff.mpr hsnd, fun x hx => ?_⟩
    have : x ∈ s := hm.mem_iff.mp hx
    exact List.mem_range.mp (hs.mem this)
  · rintro ⟨hnd, hlt⟩
    have hsub : m ⊆ List.range g.nodeCount := fun x hx =>
      List.mem_range.mpr (hlt x hx)
    obtain ⟨s, hperm, hs⟩ := List.Nodup.subperm hnd hsub
    exact ⟨s, List.mem_sublists.mpr hs,
      List.mem_permutations'.mpr hperm.symm⟩

theorem mem_find_cycle_iff (g : Graph) (v : Nat) (p : List Nat) :
    p ∈ find_cycle g v ↔ IsSimpleCycleThrough g v p := by
  unfold find_cycle IsSimpleCycleThrough
  split
  · rename_i hv
    rw [List.mem_map]
    constructor
    · rintro ⟨m, hm, rfl⟩
      rw [List.mem_filter, Bool.and_eq_true] at hm
      obtain ⟨hmem, hnotin, hchain⟩ := hm
      rw [mem_nodup_vertex_lists] at hmem
      obtain ⟨hnd, hlt⟩ := hmem
      have hvnotin : v ∉ m := by simpa using hnotin
      refine ⟨by simp, rfl, List.getLast?_concat (v :: m),
        ?_, ?_, (edge_chain_iff g _).mp hchain⟩
      · have : ((v :: m) ++ [v]).dropLast = v :: m := List.dropLast_concat ..
        rw [show (v :: m ++ [v] : List Nat) = (v :: m) ++ [v] from rfl, this]
        exact List.nodup_cons.mpr ⟨hvnotin, hnd⟩
      · intro x hx
        rcases List.mem_cons.mp hx with rfl | hx
        · exact hv
        · rcases List.mem_append.mp hx with hx | hx
          · exact hlt x hx
          · rw [List.mem_singleton] at hx
            subst hx
            exact hv
    · rintro ⟨hlen, hhead, hlast, hnd, hlt, hchain⟩
      rcases List.eq_nil_or_concat' p with rfl | ⟨l, b, rfl⟩
      · simp at hlen
      have hl : l ≠ [] := by
        intro h
        subst h
        simp at hlen
      obtain ⟨a, m, rfl⟩ := List.exists_cons_of_ne_nil hl
      have ha : a = v := by simpa using hhead
      have hb : b = v := by
        have := @List.getLast?_concat Nat b (a :: m)
        rw [this] at hlast
        exact Option.some.inj hlast
      subst ha
      subst hb
      have hdl : ((b :: m) ++ [b]).dropLast = b :: m := List.dropLast_concat ..
      rw [hdl] at hnd
      obtain ⟨hanotin, hmnd⟩ := List.nodup_cons.mp hnd
      refine ⟨m, List.mem_filter.mpr ⟨?_, ?_⟩, rfl⟩
      · rw [mem_nodup_vertex_lists]
        refine ⟨hmnd, fun x hx => hlt x ?_⟩
        exact List.mem_cons.mpr (Or.inr (List.mem_append.mpr (Or.inl hx)))
      · rw [Bool.and_eq_true]
        exact ⟨by simpa using hanotin, (edge_chain_iff g _).mpr hchain⟩
  · rename_i hv
    simp only [List.not_mem_nil, false_iff]
    rintro ⟨_, hhead, _, _, hlt, _⟩
    exact hv (hlt v (List.mem_of_mem_head? hhead))

theorem exists_dup_split (l : List Nat) (h : ¬l.Nodup) :
    ∃ l1 x l2 l3, l = l1 ++ x :: (l2 ++ x :: l3) := by
  rw [List.nodup_iff_sublist] at h
  push_neg at h
  obtain ⟨x, hx⟩ := h
  rw [List.cons_sublist_iff] at hx
  obtain ⟨r1, r2, rfl, hxr1, hxr2⟩ := hx
  have hxr2m : x ∈ r2 := List.singleton_sublist.mp hxr2
  obtain ⟨s, t, rfl⟩ := List.append_of_mem hxr1
  obtain ⟨u, w, rfl⟩ := List.append_of_mem hxr2m
  exact ⟨s, x, t ++ u, w, by simp⟩

theorem transGen_exists_chain (r : Nat → Nat → Prop) (a b : Nat)
    (h : Relation.TransGen r a b) :
    ∃ p, (a :: p).Chain' r ∧ (a :: p).getLast? = some b ∧ p ≠ [] := by
  induction h with
  | single hab =>
    rename_i c
    exact ⟨[c], by simp [List.chain'_cons, hab], by simp, by simp⟩
  | tail _ hbc ih =>
    rename_i c d _
    obtain ⟨p, hc, hl, hne⟩ := ih
    refine ⟨p ++ [d], ?_, ?_, by simp⟩
    · refine List.Chain'.append hc (List.chain'_singleton d) ?_
      intro x hx y hy
      rw [List.head?_cons] at hy
      cases hy
      rw [hl] at hx
      cases hx
      exact hbc
    · rw [show a :: (p ++ [d]) = (a :: p) ++ [d] from rfl]
      exact List.getLast?_concat _

theorem transGen_of_chain (r : Nat → Nat → Prop) :
    ∀ (p : List Nat) (a b : Nat), (a :: p).Chain' r →
      (a :: p).getLast? = some b → p ≠ [] → Relation.TransGen r a b := by
  intro p
  induction p with
  | nil => intro a b _ _ hne; exact absurd rfl hne
  | cons x rest ih =>
    intro a b hchain hlast _
    rw [List.chain'_cons] at hchain
    obtain ⟨hax, hchain⟩ := hchain
    cases rest with
    | nil =>
      simp only [List.getLast?_cons_cons, List.getLast?_singleton] at hlast
      cases hlast
      exact Relation.TransGen.single hax
    | cons y t =>
      refine Relation.TransGen.head hax (ih x b hchain ?_ (by simp))
      simpa using hlast

theorem chain_on_segment (r : Nat → Nat → Prop) (q p : List Nat)
    (h : p.Chain' r) (hq : q.IsInfix p) : q.Chain' r := by
  obtain ⟨s, t, rfl⟩ := hq
  rw [List.chain'_append] at h
  rw [List.chain'_append] at h
  exact h.1.2.1

theorem closed_walk_to_simple (r : Nat → Nat → Prop) :
    ∀ (n : Nat) (p : List Nat), p.length ≤ n → p.Chain' r →
      p.head? = p.getLast? → 2 ≤ p.length →
      ∃ q : List Nat, q.Chain' r ∧ q.head? = q.getLast? ∧ 2 ≤ q.length
        ∧ q.dropLast.Nodup ∧ ∀ x ∈ q, x ∈ p := by
  intro n
  induction n with
  | zero =>
    intro p hle _ _ hlen
    omega
  | succ n ih =>
    intro p hle hchain hcl hlen
    by_cases hnd : p.dropLast.Nodup
    · exact ⟨p, hchain, hcl, hlen, hnd, fun x hx => hx⟩
    · obtain ⟨l1, x, l2, l3, hsplit⟩ := exists_dup_split p.dropLast hnd
      have hpne : p ≠ [] := by
        intro h
        subst h
        simp at hlen
      obtain ⟨b, hb⟩ : ∃ b, p.getLast hpne = b := ⟨_, rfl⟩
      have hp : p = (l1 ++ x :: (l2 ++ x :: l3)) ++ [b] := by
        rw [← hb, ← hsplit]
        exact (List.dropLast_append_getLast hpne).symm
      have hinfix : (x :: l2 ++ [x]).IsInfix p := by
        refine ⟨l1, l3 ++ [b], ?_⟩
        rw [hp]
        simp
      have hq : ∃ q : List Nat, q.Chain' r ∧ q.head? = q.getLast?
          ∧ 2 ≤ q.length ∧ q.dropLast.Nodup ∧ ∀ y ∈ q, y ∈ x :: l2 ++ [x] := by
        refine ih (x :: l2 ++ [x]) ?_ (chain_on_segment r _ _ hchain hinfix) ?_ ?_
        · have := congrArg List.length hp
          simp only [List.length_append, List.length_cons] at this ⊢
          omega
        · rw [show (x :: l2 ++ [x] : List Nat) = (x :: l2) ++ [x] from rfl]
          rw [List.getLast?_concat]
          rfl
        · simp
      obtain ⟨q, h1, h2, h3, h4, h5⟩ := hq
      exact ⟨q, h1, h2, h3, h4,
        fun y hy => List.IsInfix.subset hinfix (h5 y hy)⟩

theorem chain_mem_edge (es : List (Nat × Nat)) :
    ∀ (p : List Nat), p.Chain' (EdgeRel es) → 2 ≤ p.length →
      ∀ x ∈ p, ∃ e ∈ es, e.1 = x ∨ e.2 = x := by
  intro p
  induction p with
  | nil =>
    intro _ hlen
    simp at hlen
  | cons a rest ih =>
    intro hchain hlen x hx
    cases rest with
    | nil => simp at hlen
    | cons b t =>
      rw [List.chain'_cons] at hchain
      obtain ⟨hab, hchain⟩ := hchain
      rcases List.mem_cons.mp hx with rfl | hx
      · exact ⟨(x, b), hab, Or.inl rfl⟩
      · cases t with
        | nil =>
          rw [List.mem_singleton] at hx
          subst hx
          exact ⟨(a, x), hab, Or.inr rfl⟩
        | cons c t2 =>
          exact ih hchain (by simp) x hx

theorem acyclic_of_find_cycle_empty (g : Graph) (hwf : g.WF)
    (h : ∀ v < g.nodeCount, find_cycle g v = []) : Acyclic g.edges := by
  intro v hv
  obtain ⟨p, hc, hl, hne⟩ := transGen_exists_chain _ _ _ hv
  have hclosed : (v :: p).head? = (v :: p).getLast? := by
    rw [hl]
    rfl
  have hlen : 2 ≤ (v :: p).length := by
    cases p with
    | nil => exact absurd rfl hne
    | cons y t => simp
  obtain ⟨q, hqc, hqcl, hqlen, hqnd, hqsub⟩ :=
    closed_walk_to_simple (EdgeRel g.edges) (v :: p).length (v :: p)
      le_rfl hc hclosed hlen
  have hbound : ∀ x ∈ q, x < g.nodeCount := by
    intro x hx
    obtain ⟨e, he, hor⟩ := chain_mem_edge g.edges q hqc hqlen x hx
    rcases hor with rfl | rfl
    · exact (hwf e he).1
    · exact (hwf e he).2
  obtain ⟨w, hw⟩ : ∃ w, q.head? = some w := by
    cases q with
    | nil => simp at hqlen
    | cons a t => exact ⟨a, rfl⟩
  have hwlt : w < g.nodeCount := hbound w (List.mem_of_mem_head? hw)
  have hcyc : IsSimpleCycleThrough g w q :=
    ⟨hqlen, hw, hqcl ▸ hw, hqnd, hbound, hqc⟩
  have hmem := (mem_find_cycle_iff g w q).mpr hcyc
  rw [h w hwlt] at hmem
  exact absurd hmem (List.not_mem_nil q)

theorem exists_root (live : List Nat) (edges : List (Nat × Nat))
    (hne : live ≠ []) (hsrc : ∀ e ∈ edges, e.1 ∈ live)
    (hacyc : Acyclic edges) : shuffle_roots live edges ≠ [] := by
  intro hroots
  have hpred : ∀ v ∈ live, ∃ u, (u, v) ∈ edges ∧ u ∈ live := by
    intro v hv
    by_cases hemp : (edges.filter fun e => e.2 = v).isEmpty = true
    · have hvr : v ∈ shuffle_roots live edges :=
        List.mem_filter.mpr ⟨hv, hemp⟩
      rw [hroots] at hvr
      exact absurd hvr (List.not_mem_nil v)
    · have hne2 : (edges.filter fun e => e.2 = v) ≠ [] := by
        intro h
        rw [h] at hemp
        exact hemp rfl
      obtain ⟨e, he⟩ := List.exists_mem_of_ne_nil _ hne2
      rw [List.mem_filter] at he
      obtain ⟨hee, hev⟩ := he
      have he2 : e.2 = v := by simpa using hev
      refine ⟨e.1, ?_, hsrc e hee⟩
      rw [← he2]
      exact hee
  classical
  obtain ⟨v0, hv0⟩ := List.exists_mem_of_ne_nil live hne
  let pick : {v // v ∈ live} → {v // v ∈ live} := fun p =>
    ⟨(hpred p.1 p.2).choose, (hpred p.1 p.2).choose_spec.2⟩
  let f : Nat → {v // v ∈ live} := fun n => pick^[n] ⟨v0, hv0⟩
  have hstep : ∀ n, ((f (n + 1)).1, (f n).1) ∈ edges := by
    intro n
    have hit : f (n + 1) = pick (f n) := Function.iterate_succ_apply' pick n _
    rw [hit]
    exact (hpred (f n).1 (f n).2).choose_spec.1
  have htg : ∀ (d i : Nat),
      Relation.TransGen (EdgeRel edges) (f (i + d + 1)).1 (f i).1 := by
    intro d
    induction d with
    | zero => intro i; exact Relation.TransGen.single (hstep i)
    | succ d ih =>
      intro i
      exact Relation.TransGen.head (hstep (i + d + 1)) (ih i)
  have hpig : ∃ a b : Nat, a ≠ b ∧ f a = f b := by
    obtain ⟨a, b, hab, heq⟩ := Finite.exists_ne_map_eq_of_infinite
      (fun n => (⟨live.indexOf (f n).1,
        List.indexOf_lt_length.mpr (f n).2⟩ : Fin live.length))
    refine ⟨a, b, hab, Subtype.ext ?_⟩
    have hidx := congrArg Fin.val heq
    exact (List.indexOf_inj (f a).2 (f b).2).mp hidx
  obtain ⟨a, b, hab, heq⟩ := hpig
  rcases Nat.lt_or_ge a b with h | h
  · obtain ⟨d, rfl⟩ : ∃ d, b = a + d + 1 := ⟨b - a - 1, by omega⟩
    have htr := htg d a
    rw [heq] at htr
    exact hacyc _ htr
  · have hba : b < a := by omega
    obtain ⟨d, rfl⟩ : ∃ d, a = b + d + 1 := ⟨a - b - 1, by omega⟩
    have htr := htg d b
    rw [← heq] at htr
    exact hacyc _ htr

theorem shuffle_go_spec :
    ∀ (fuel : Nat) (live : List Nat) (edges : List (Nat × Nat))
      (picks : List Nat),
      live.Nodup → live.length = fuel →
      (∀ e ∈ edges, e.1 ∈ live ∧ e.2 ∈ live) →
      Acyclic edges →
      ∃ out, shuffle_go fuel live edges picks = some out
        ∧ out.Perm live
        ∧ ∀ u v, (u, v) ∈ edges → out.indexOf u < out.indexOf v := by
  intro fuel
  induction fuel with
  | zero =>
    intro live edges picks _ hlen hends _
    have hnil : live = [] := List.length_eq_zero.mp hlen
    subst hnil
    refine ⟨[], by simp [shuffle_go], List.Perm.refl [], ?_⟩
    intro u v huv
    exact absurd (hends (u, v) huv).1 (List.not_mem_nil u)
  | succ fuel ih =>
    intro live edges picks hnd hlen hends hacyc
    have hlne : live ≠ [] := by
      intro h
      subst h
      simp at hlen
    have hriche : shuffle_roots live edges ≠ [] :=
      exists_root live edges hlne (fun e he => (hends e he).1) hacyc
    set roots := shuffle_roots live edges with hroots
    have hrlen : 0 < roots.length := List.length_pos.mpr hriche
    set idx := picks.headD 0 % roots.length with hidx
    have hidxlt : idx < roots.length := Nat.mod_lt _ hrlen
    set root := roots[idx] with hroot
    have hval : roots[idx]? = some root := List.getElem?_eq_getElem hidxlt
    have hrootroots : root ∈ roots := List.getElem_mem hidxlt
    have hrootlive : root ∈ live := List.mem_of_mem_filter hrootroots
    have hnoinc : ∀ u, (u, root) ∉ edges := by
      intro u hu
      have hfil := List.of_mem_filter hrootroots
      rw [List.isEmpty_iff] at hfil
      have : (u, root) ∈ edges.filter fun e => e.2 = root :=
        List.mem_filter.mpr ⟨hu, by simp⟩
      rw [hfil] at this
      exact absurd this (List.not_mem_nil _)
    have hih := ih (live.erase root)
      (edges.filter fun e => e.1 ≠ root ∧ e.2 ≠ root) picks.tail
      (hnd.erase root)
      (by rw [List.length_erase_of_mem hrootlive, hlen]; omega)
      (by
        intro e he
        rw [List.mem_filter] at he
        obtain ⟨hee, hcond⟩ := he
        rw [decide_eq_true_eq] at hcond
        obtain ⟨h1, h2⟩ := hcond
        exact ⟨(List.mem_erase_of_ne h1).mpr (hends e hee).1,
          (List.mem_erase_of_ne h2).mpr (hends e hee).2⟩)
      (by
        intro v hv
        refine hacyc v (hv.mono ?_)
        intro a b hab
        exact List.mem_of_mem_filter hab)
    obtain ⟨out, hout, hperm, horder⟩ := hih
    refine ⟨root :: out, ?_, ?_, ?_⟩
    · simp only [shuffle_go]
      rw [if_neg (by simpa using hlne)]
      rw [← hroots, ← hidx, hval]
      simp only [hout, Option.map_some']
    · exact (hperm.cons root).trans (List.perm_cons_erase hrootlive).symm
    · intro u v huv
      have hvne : v ≠ root := by
        intro h
        subst h
        exact hnoinc u huv
      by_cases hune : u = root
      · subst hune
        rw [List.indexOf_cons_self]
        rw [show (root :: out).indexOf v = out.indexOf v + 1 from by
          simp [List.indexOf_cons, beq_false_of_ne (Ne.symm hvne)]]
        omega
      · have huv' : (u, v) ∈ edges.filter fun e => e.1 ≠ root ∧ e.2 ≠ root :=
          List.mem_filter.mpr ⟨huv, by simp [hune, hvne]⟩
        have := horder u v huv'
        rw [show (root :: out).indexOf u = out.indexOf u + 1 from by
          simp [List.indexOf_cons, beq_false_of_ne (Ne.symm hune)]]
        rw [show (root :: out).indexOf v = out.indexOf v + 1 from by
          simp [List.indexOf_cons, beq_false_of_ne (Ne.symm hvne)]]
        omega

theorem shuffle_spec (g : Graph) (hwf : g.WF)
    (hcyc : ∀ v < g.nodeCount, find_cycle g v = []) (picks : List Nat) :
    ∃ out, shuffle g picks = some out
      ∧ out.Perm (List.range g.nodeCount)
      ∧ ∀ u v, (u, v) ∈ g.edges → out.indexOf u < out.indexOf v := by
  apply shuffle_go_spec g.nodeCount (List.range g.nodeCount) g.edges picks
    (List.nodup_range g.nodeCount) (List.length_range g.nodeCount)
  · intro e he
    exact ⟨List.mem_range.mpr (hwf e he).1, List.mem_range.mpr (hwf e he).2⟩
  · exact acyclic_of_find_cycle_empty g hwf hcyc

theorem ascii_digit_bounds (c : Char) (h : c.isDigit = true) :
    48 ≤ c.toNat ∧ c.toNat ≤ 57 := by
  simp only [Char.isDigit, decide_eq_true_eq, Bool.and_eq_true] at h
  exact h

theorem rust_is_whitespace_iff (c : Char) :
    rust_is_whitespace c = true
      ↔ ((9 ≤ c.toNat ∧ c.toNat ≤ 13) ∨ c.toNat = 32 ∨ c.toNat = 0x85
        ∨ c.toNat = 0xA0 ∨ c.toNat = 0x1680
        ∨ (0x2000 ≤ c.toNat ∧ c.toNat ≤ 0x200A) ∨ c.toNat = 0x2028
        ∨ c.toNat = 0x2029 ∨ c.toNat = 0x202F ∨ c.toNat = 0x205F
        ∨ c.toNat = 0x3000) := by
  unfold rust_is_whitespace
  exact decide_eq_true_iff

theorem ascii_digit_not_rust_whitespace (c : Char) (h : c.isDigit = true) :
    rust_is_whitespace c = false := by
  obtain ⟨h1, h2⟩ := ascii_digit_bounds c h
  rw [Bool.eq_false_iff]
  intro hws
  rw [rust_is_whitespace_iff] at hws
  omega

theorem digit_ne_comma (c : Char) (h : c.isDigit = true) : c ≠ ',' := by
  obtain ⟨h1, h2⟩ := ascii_digit_bounds c h
  intro hc
  subst hc
  revert h1 h2
  decide

theorem rust_whitespace_ne_comma (c : Char)
    (h : rust_is_whitespace c = true) : c ≠ ',' := by
  intro hc
  subst hc
  rw [rust_is_whitespace_iff] at h
  revert h
  decide

theorem splitOnP_ne_nil (p : Char → Bool) (s : List Char) :
    s.splitOnP p ≠ [] := by
  induction s with
  | nil => simp
  | cons a t ih =>
    rw [List.splitOnP_cons]
    split
    · simp
    · cases h : t.splitOnP p with
      | nil => exact absurd h ih
      | cons x xs => simp [h, List.modifyHead]

theorem splitOn_ne_nil (s : List Char) (c : Char) : s.splitOn c ≠ [] :=
  splitOnP_ne_nil _ s

theorem dropWhile_append_of_all (p : Char → Bool) (l1 l2 : List Char)
    (h : ∀ c ∈ l1, p c = true) :
    (l1 ++ l2).dropWhile p = l2.dropWhile p := by
  induction l1 with
  | nil => rfl
  | cons a t ih =>
    simp only [List.cons_append, List.dropWhile_cons, h a (by simp)]
    exact ih fun c hc => h c (by simp [hc])

theorem trim_chars_decomp (t : List Char) :
    ∃ w1 w2, t = w1 ++ trim_chars t ++ w2
      ∧ (∀ c ∈ w1, rust_is_whitespace c = true)
      ∧ (∀ c ∈ w2, rust_is_whitespace c = true) := by
  refine ⟨t.takeWhile rust_is_whitespace,
    ((t.dropWhile rust_is_whitespace).reverse.takeWhile
      rust_is_whitespace).reverse, ?_, ?_, ?_⟩
  · conv_lhs => rw [← List.takeWhile_append_dropWhile
      (p := rust_is_whitespace) (l := t)]
    rw [List.append_assoc]
    congr 1
    unfold trim_chars
    conv_lhs => rw [show t.dropWhile rust_is_whitespace
      = (t.dropWhile rust_is_whitespace).reverse.reverse from
        (List.reverse_reverse _).symm]
    conv_lhs => rw [← List.takeWhile_append_dropWhile
      (p := rust_is_whitespace)
      (l := (t.dropWhile rust_is_whitespace).reverse)]
    rw [List.reverse_append]
  · intro c hc
    exact List.mem_takeWhile_imp hc
  · intro c hc
    rw [List.mem_reverse] at hc
    exact List.mem_takeWhile_imp hc

theorem trim_chars_eq_of_decomp (w1 d w2 : List Char)
    (hw1 : ∀ c ∈ w1, rust_is_whitespace c = true)
    (hw2 : ∀ c ∈ w2, rust_is_whitespace c = true)
    (hd : d ≠ []) (hdw : ∀ c ∈ d, rust_is_whitespace c = false) :
    trim_chars (w1 ++ d ++ w2) = d := by
  unfold trim_chars
  rw [List.append_assoc, dropWhile_append_of_all _ w1 (d ++ w2) hw1]
  obtain ⟨c, d', rfl⟩ := List.exists_cons_of_ne_nil hd
  rw [List.cons_append, List.dropWhile_cons, hdw c (by simp)]
  simp only [Bool.false_eq_true, if_false]
  rw [show (c :: (d' ++ w2)).reverse = w2.reverse ++ (c :: d').reverse from by
    rw [← List.cons_append, List.reverse_append]]
  rw [dropWhile_append_of_all _ w2.reverse _ (by
    intro x hx
    rw [List.mem_reverse] at hx
    exact hw2 x hx)]
  cases hrev : (c :: d').reverse with
  | nil => exact absurd hrev (by simp)
  | cons x xs =>
    have hx : x ∈ c :: d' := by
      rw [← List.mem_reverse, hrev]
      simp
    rw [List.dropWhile_cons, hdw x hx]
    simp only [Bool.false_eq_true, if_false]
    rw [← hrev, List.reverse_reverse]

theorem spec_tokens_comma_free (digit : Char → Bool)
    (hC : ∀ ch : Char, digit ch = true → ch ≠ ',')
    (toks : List (List Char)) (htok : ∀ t ∈ toks, SpecToken digit t) :
    ∀ l ∈ toks, ',' ∉ l := by
  intro l hl hcomma
  obtain ⟨w1, d, w2, rfl, hw1, hw2, _, hdig⟩ := htok l hl
  rcases List.mem_append.mp hcomma with hcm | hcm
  · rcases List.mem_append.mp hcm with hcm | hcm
    · exact rust_whitespace_ne_comma ',' (hw1 ',' hcm) rfl
    · exact hC ',' (hdig ',' hcm) rfl
  · exact rust_whitespace_ne_comma ',' (hw2 ',' hcm) rfl

theorem sections_regex_matches_iff (digit : Char → Bool) (s : List Char)
    (hW : ∀ ch : Char, digit ch = true → rust_is_whitespace ch = false)
    (hC : ∀ ch : Char, digit ch = true → ch ≠ ',') :
    sections_regex_matches digit s = true ↔ SpecSectionsList digit s := by
  unfold sections_regex_matches SpecSectionsList
  constructor
  · intro h
    rw [Bool.or_eq_true] at h
    rcases h with h | h
    · exact Or.inl (List.isEmpty_iff.mp h)
    · right
      refine ⟨s.splitOn ',', splitOn_ne_nil s ',',
        (List.intercalate_splitOn s ',').symm, ?_⟩
      intro t ht
      rw [List.all_eq_true] at h
      have hht := h t ht
      rw [Bool.and_eq_true] at hht
      obtain ⟨hne, hdig⟩ := hht
      obtain ⟨u1, u2, hdec, hu1, hu2⟩ := trim_chars_decomp t
      refine ⟨u1, trim_chars t, u2, hdec, hu1, hu2, ?_, ?_⟩
      · intro hnil
        rw [hnil] at hne
        simp at hne
      · rw [List.all_eq_true] at hdig
        exact hdig
  · rintro (rfl | ⟨toks, htne, rfl, htok⟩)
    · simp
    · rw [Bool.or_eq_true]
      right
      have hnc := spec_tokens_comma_free digit hC toks htok
      rw [show (List.intercalate [','] toks : List Char)
        = [','].intercalate toks from rfl]
      rw [List.splitOn_intercalate toks ',' hnc htne]
      rw [List.all_eq_true]
      intro t ht
      obtain ⟨w1, d, w2, rfl, hw1, hw2, hd, hdig⟩ := htok t ht
      rw [trim_chars_eq_of_decomp w1 d w2 hw1 hw2 hd
        (fun c hc => hW c (hdig c hc))]
      rw [Bool.and_eq_true]
      refine ⟨by simpa using hd, ?_⟩
      rw [List.all_eq_true]
      exact hdig

theorem parse_sections_eq_tokens (digit : Char → Bool) (usizeMax : Nat)
    (toks : List (List Char))
    (hW : ∀ ch : Char, digit ch = true → rust_is_whitespace ch = false)
    (hC : ∀ ch : Char, digit ch = true → ch ≠ ',')
    (htok : ∀ t ∈ toks, SpecToken digit t) (htne : toks ≠ []) :
    parse_sections usizeMax (List.intercalate [','] toks)
      = ((toks.map fun t =>
            if (trim_chars t).all Char.isDigit
                ∧ digits_to_nat (trim_chars t) ≤ usizeMax
              then digits_to_nat (trim_chars t) else 0).filter
          fun n => n ≠ 0) := by
  unfold parse_sections
  have hnc := spec_tokens_comma_free digit hC toks htok
  rw [show (List.intercalate [','] toks : List Char)
    = [','].intercalate toks from rfl]
  rw [List.splitOn_intercalate toks ',' hnc htne]
  congr 1
  apply List.map_congr_left
  intro t ht
  obtain ⟨w1, d, w2, rfl, hw1, hw2, hd, hdig⟩ := htok t ht
  unfold parse_usize_or_default
  have htr := trim_chars_eq_of_decomp w1 d w2 hw1 hw2 hd
    (fun c hc => hW c (hdig c hc))
  rw [htr]
  by_cases hok : d.all Char.isDigit = true ∧ digits_to_nat d ≤ usizeMax
  · rw [if_pos ⟨hd, hok.1, hok.2⟩, if_pos hok]
  · rw [if_neg ?_, if_neg hok]
    intro hcontra
    exact hok ⟨hcontra.2.1, hcontra.2.2⟩

theorem mark_cycles_length (cs : List Constraints) :
    (mark_cycles cs).1.length = cs.length := by
  unfold mark_cycles
  simp

theorem mark_cycles_fst_getElem (cs : List Constraints) (i : Nat)
    (h : i < cs.length) :
    ((mark_cycles cs).1)[i]?
      = some (if !(find_cycle (compute_graph cs) i).isEmpty then { cs.get ⟨i, h⟩ with paradox_error := some (render_cycles (find_cycle (compute_graph cs) i)) } else { cs.get ⟨i, h⟩ with paradox_error := none }) := by
  unfold mark_cycles
  dsimp only
  rw [List.getElem?_eq_getElem (by simpa using h)]
  congr 1
  have hg := List.get_mapIdx cs
    (fun index c =>
      if !(find_cycle (compute_graph cs) index).isEmpty then { c with paradox_error := some (render_cycles (find_cycle (compute_graph cs) index)) }
      else { c with paradox_error := none }) i h
  rw [← hg]
  rfl

theorem mark_cycles_snd (cs : List Constraints) :
    (mark_cycles cs).2
      = if ∀ i < cs.length, find_cycle (compute_graph cs) i = []
        then some (compute_graph cs) else none := by
  unfold mark_cycles
  dsimp only
  rw [nodeCount_compute_graph]
  by_cases hall : ∀ i < cs.length, find_cycle (compute_graph cs) i = []
  · rw [if_pos hall]
    rw [if_pos]
    rw [List.length_eq_zero, List.filter_eq_nil_iff]
    intro i hi
    rw [List.mem_range] at hi
    simp [hall i hi]
  · rw [if_neg hall]
    rw [if_neg]
    intro hlen
    rw [List.length_eq_zero, List.filter_eq_nil_iff] at hlen
    apply hall
    intro i hi
    have := hlen i (List.mem_range.mpr hi)
    simpa using this

theorem perm_range_head_eq_zero (out : List Nat) (n : Nat)
    (hperm : out.Perm (List.range n)) (h2 : 2 ≤ n)
    (hfirst : ∀ j, 1 ≤ j → j < n → out.indexOf 0 < out.indexOf j) :
    out.head? = some 0 := by
  cases hh : out with
  | nil =>
    have := hperm.length_eq
    rw [hh] at this
    simp at this
    omega
  | cons a rest =>
    have ha : a < n := by
      have : a ∈ List.range n := hperm.mem_iff.mp (by simp [hh])
      simpa using this
    by_cases h0 : a = 0
    · simp [h0]
    · have h1 : 1 ≤ a := Nat.one_le_iff_ne_zero.mpr h0
      have := hfirst a h1 ha
      rw [hh, List.indexOf_cons_self] at this
      omega

theorem perm_range_getLast_eq (out : List Nat) (n : Nat)
    (hperm : out.Perm (List.range n)) (h2 : 2 ≤ n)
    (hlast : ∀ j, j < n - 1 → out.indexOf j < out.indexOf (n - 1)) :
    out.getLast? = some (n - 1) := by
  have hnd : out.Nodup := hperm.nodup_iff.mpr (List.nodup_range n)
  have hne : out ≠ [] := by
    intro h
    have := hperm.length_eq
    rw [h] at this
    simp at this
    omega
  rcases List.eq_nil_or_concat' out with rfl | ⟨ys, b, rfl⟩
  · exact absurd rfl hne
  have hb : b < n := by
    have : b ∈ List.range n := hperm.mem_iff.mp (by simp)
    simpa using this
  by_cases hbn : b = n - 1
  · rw [List.getLast?_concat, hbn]
  · have hblt : b < n - 1 := by omega
    have hidxb : (ys ++ [b]).indexOf b = ys.length := by
      have hbnot : b ∉ ys := by
        intro hmem
        exact (List.nodup_append.mp hnd).2.2 hmem (by simp)
      rw [List.indexOf_append_of_not_mem hbnot]
      simp
    have hmemn : (n - 1) ∈ ys ++ [b] := by
      refine hperm.mem_iff.mpr ?_
      rw [List.mem_range]
      omega
    have hidxn : (ys ++ [b]).indexOf (n - 1) < ys.length + 1 := by
      have := List.indexOf_lt_length.mpr hmemn
      simpa using this
    have := hlast b hblt
    rw [hidxb] at this
    omega

/-- C10: the shuffle gate `can_shuffle` answers true exactly when the
document has strictly more than one section and every constraint's text
buffer is lexically valid; a zero- or one-section document can never be
shuffled, and the `paradox_error` fields have no effect on the gate. -/
theorem claim_C10_can_shuffle_gate (sections : List String)
    (cs : List Constraints) :
    (can_shuffle sections cs = true
      ↔ 1 < sections.length ∧ ∀ c ∈ cs, c.text_buffer_is_valid = true)
    ∧ (sections.length ≤ 1 → can_shuffle sections cs = false)
    ∧ ∀ f : Constraints → Option String,
        can_shuffle sections (cs.map fun c => { c with paradox_error := f c })
          = can_shuffle sections cs := by
  refine ⟨?_, ?_, ?_⟩
  · unfold can_shuffle
    rw [Bool.and_eq_true, List.all_eq_true]
    simp
  · intro hle
    unfold can_shuffle
    rw [Bool.and_eq_false_iff]
    left
    simp
    omega
  · intro f
    unfold can_shuffle
    congr 1
    rw [List.all_map]
    rfl

/-- C10 witness: a two-section document with valid buffers can shuffle; an
empty document can never shuffle. -/
theorem claim_C10_witness :
    can_shuffle ["a", "b"] chain_constraints = true
      ∧ can_shuffle [] [] = false :=
  ⟨(claim_C10_can_shuffle_gate ["a", "b"] chain_constraints).1.mpr
      ⟨by decide, by decide⟩,
    (claim_C10_can_shuffle_gate [] []).2.1 (by decide)⟩

/-- C3 counterexample: the claim "every constraint list that passes the
caller-side gate has every `before` reference `r` with `1 ≤ r ≤ N`" is
false on the code.  With two sections, typing `5` into the first
section's successor list passes the syntax validator (so the gate
`can_shuffle` is satisfied), yet the parsed reference 5 exceeds N = 2,
and the resulting `compute_graph` edge targets node index 4 of a 2-node
graph — exactly the out-of-bounds `NodeIndex::new(r - 1)` the claim rules
out.  The buffer is pure ASCII and its value fits any `usize`, so the
validator instantiation (ASCII digit class, 64-bit `usize::MAX`) agrees
with the program on every involved step. -/
theorem claim_C3_counterexample :
    (validate_buffer Char.isDigit USIZE_MAX_64 default "5").text_buffer_is_valid = true
    ∧ (validate_buffer Char.isDigit USIZE_MAX_64 default "5").before = [5]
    ∧ can_shuffle ["a", "b"]
        [validate_buffer Char.isDigit USIZE_MAX_64 default "5", default] = true
    ∧ ¬(∀ c ∈ [validate_buffer Char.isDigit USIZE_MAX_64 default "5", default],
        ∀ r ∈ c.before, 1 ≤ r ∧ r ≤ 2)
    ∧ ¬(compute_graph
        [validate_buffer Char.isDigit USIZE_MAX_64 default "5", default]).WF := by
  refine ⟨by decide, by decide, by decide, ?_, ?_⟩
  · intro h
    have := h (validate_buffer Char.isDigit USIZE_MAX_64 default "5")
      (by decide) 5 (by decide)
    omega
  · intro h
    have hmem : ((0 : Nat), (4 : Nat))
        ∈ (compute_graph
            [validate_buffer Char.isDigit USIZE_MAX_64 default "5",
              default]).edges := by
      decide
    have := h (0, 4) hmem
    rw [nodeCount_compute_graph] at this
    revert this
    decide

/-- C3 amended: the syntax validator does guarantee that every parsed
reference is at least 1 (literal `0` tokens are discarded, together with
everything else that parses to the `usize` default) — for every build's
`usize::MAX` — but it performs no upper-range check, so the gate does not
keep out-of-range references away from the graph builder. -/
theorem claim_C3_amended_refs_positive (usizeMax : Nat) (s : String) :
    ∀ r ∈ parse_sections usizeMax s.data, 1 ≤ r := by
  intro r hr
  unfold parse_sections at hr
  rw [List.mem_filter] at hr
  have := hr.2
  rw [decide_eq_true_eq] at this
  omega

/-- C3 amended witness: the buffer `"5"` parses to the reference 5, which
the amended guarantee shows is at least 1. -/
theorem claim_C3_amended_witness :
    5 ∈ parse_sections USIZE_MAX_64 "5".data ∧ 1 ≤ 5 :=
  ⟨by decide, claim_C3_amended_refs_positive USIZE_MAX_64 "5" 5 (by decide)⟩

/-- C6: `compute_graph` contains the fixed-pin edges.  In zero-based node
indices: if the first constraint is fixed there is an edge from node 0 to
every node `1 ≤ j < N` (one-based: vertex 1 precedes `2..=N`); if the
last constraint is fixed there is an edge from every node `j < N - 1` to
node `N - 1` (one-based: `1..=N-1` precede vertex N); and for a
single-section list the fixed flag contributes no edges: the built graph
is the one built with the flag cleared. -/
theorem claim_C6_fixed_pin_edges (cs : List Constraints) :
    (cs.headI.fixed = true →
      ∀ j, 1 ≤ j → j < cs.length → (0, j) ∈ (compute_graph cs).edges)
    ∧ ((cs.getLastD default).fixed = true →
      ∀ j, j < cs.length - 1
        → (j, cs.length - 1) ∈ (compute_graph cs).edges)
    ∧ ∀ c : Constraints,
        compute_graph [c] = compute_graph [{ c with fixed := false }] := by
  refine ⟨?_, ?_, ?_⟩
  · intro hfix j h1 h2
    have hne : cs ≠ [] := by
      intro h
      subst h
      simp at h2
    obtain ⟨c0, t, rfl⟩ := List.exists_cons_of_ne_nil hne
    rw [mem_compute_graph_iff]
    refine ⟨0, c0, by simp, ?_⟩
    rw [mem_step_pairs_iff]
    exact Or.inl ⟨rfl, by simpa using hfix, rfl, h1, h2⟩
  · intro hfix j hj
    have hlen : 1 ≤ cs.length := by omega
    rw [mem_compute_graph_iff]
    refine ⟨cs.length - 1, cs.get ⟨cs.length - 1, by omega⟩,
      List.getElem?_eq_getElem (by omega), ?_⟩
    rw [mem_step_pairs_iff]
    exact Or.inr (Or.inl ⟨rfl, hfix, rfl, hj⟩)
  · intro c
    obtain ⟨f, bef, tb, tv, pe⟩ := c
    cases f <;> rfl

/-- C6 witness: with four sections, first and last fixed, the pin edges
0→2 and 1→3 exist, and for one section the fixed flag builds the same
graph as the cleared flag. -/
theorem claim_C6_witness :
    (0, 2) ∈ (compute_graph fixed_four_constraints).edges
    ∧ (1, 3) ∈ (compute_graph fixed_four_constraints).edges
    ∧ compute_graph [{ (default : Constraints) with fixed := true }]
      = compute_graph
          [{ ({ (default : Constraints) with fixed := true } : Constraints) with
              fixed := false }] :=
  ⟨(claim_C6_fixed_pin_edges fixed_four_constraints).1 (by decide) 2
      (by decide) (by decide),
   (claim_C6_fixed_pin_edges fixed_four_constraints).2.1 (by decide) 1
      (by decide),
   (claim_C6_fixed_pin_edges fixed_four_constraints).2.2
      { (default : Constraints) with fixed := true }⟩

/-- C5: for any graph and vertex, `find_cycle` returns exactly the set of
simple directed cycles through that vertex (paths of length ≥ 1 that
start and end there, visiting no other vertex twice), and in particular a
self-loop edge yields a detected cycle of length 1 (the two-entry vertex
list `[v, v]`). -/
theorem claim_C5_find_cycle_exact (g : Graph) (v : Nat) :
    (∀ p, p ∈ find_cycle g v ↔ IsSimpleCycleThrough g v p)
    ∧ ((v, v) ∈ g.edges → v < g.nodeCount → [v, v] ∈ find_cycle g v) := by
  refine ⟨mem_find_cycle_iff g v, ?_⟩
  intro he hv
  rw [mem_find_cycle_iff]
  refine ⟨by simp, rfl, rfl, by simp, ?_, ?_⟩
  · intro x hx
    rcases List.mem_cons.mp hx with rfl | hx
    · exact hv
    · rw [List.mem_singleton] at hx
      subst hx
      exact hv
  · rw [List.chain'_cons]
    exact ⟨he, List.chain'_singleton v⟩

/-- C5 witness: the spec §8 self-reference test — one section whose
constraint names itself yields the length-1 cycle at vertex 1 (node 0). -/
theorem claim_C5_witness :
    [0, 0] ∈ find_cycle (compute_graph self_loop_constraints) 0 :=
  (claim_C5_find_cycle_exact (compute_graph self_loop_constraints) 0).2
    (by decide) (by decide)

theorem find_cycle_ne_nil_iff (g : Graph) (i : Nat) :
    find_cycle g i ≠ [] ↔ ∃ p, IsSimpleCycleThrough g i p := by
  constructor
  · intro h
    obtain ⟨p, hp⟩ := List.exists_mem_of_ne_nil _ h
    exact ⟨p, (mem_find_cycle_iff g i p).mp hp⟩
  · rintro ⟨p, hp⟩ hnil
    have := (mem_find_cycle_iff g i p).mpr hp
    rw [hnil] at this
    exact absurd this (List.not_mem_nil p)

/-- C4: after `mark_cycles` runs on a constraint list, position `i`'s
`paradox_error` equals the rendered cycle text exactly when at least one
simple cycle passes through vertex `i + 1` (node `i`), and is `none`
otherwise — the pass covers every index, so no stale message survives —
and the second component returns the built graph (`some`) precisely when
no vertex lies on a cycle, `none` precisely when some vertex does. -/
theorem claim_C4_mark_cycles (cs : List Constraints) :
    (∀ i, i < cs.length →
      ((mark_cycles cs).1)[i]?.map Constraints.paradox_error
        = some (if find_cycle (compute_graph cs) i ≠ []
            then some (render_cycles (find_cycle (compute_graph cs) i))
            else none))
    ∧ (∀ i, i < cs.length →
      (((mark_cycles cs).1)[i]?.map Constraints.paradox_error ≠ some none
        ↔ ∃ p, IsSimpleCycleThrough (compute_graph cs) i p))
    ∧ ((mark_cycles cs).2 = some (compute_graph cs)
        ↔ ∀ i, i < cs.length →
            ∀ p, ¬IsSimpleCycleThrough (compute_graph cs) i p)
    ∧ ((mark_cycles cs).2 = none
        ↔ ∃ i, i < cs.length
            ∧ ∃ p, IsSimpleCycleThrough (compute_graph cs) i p) := by
  have hfst : ∀ i, i < cs.length →
      ((mark_cycles cs).1)[i]?.map Constraints.paradox_error
        = some (if find_cycle (compute_graph cs) i ≠ []
            then some (render_cycles (find_cycle (compute_graph cs) i))
            else none) := by
    intro i h
    rw [mark_cycles_fst_getElem cs i h]
    by_cases hfc : find_cycle (compute_graph cs) i = []
    · rw [if_neg (by simpa using hfc), if_neg (by simp [hfc])]
      rfl
    · rw [if_pos (by simpa using hfc), if_pos hfc]
      rfl
  have hsnd := mark_cycles_snd cs
  have hcond : (∀ i < cs.length, find_cycle (compute_graph cs) i = [])
      ↔ ∀ i, i < cs.length →
          ∀ p, ¬IsSimpleCycleThrough (compute_graph cs) i p := by
    constructor
    · intro h i hi p hp
      have := (mem_find_cycle_iff _ i p).mpr hp
      rw [h i hi] at this
      exact absurd this (List.not_mem_nil p)
    · intro h i hi
      rw [List.eq_nil_iff_forall_not_mem]
      intro p hp
      exact h i hi p ((mem_find_cycle_iff _ i p).mp hp)
  refine ⟨hfst, ?_, ?_, ?_⟩
  · intro i h
    rw [hfst i h]
    by_cases hfc : find_cycle (compute_graph cs) i = []
    · rw [if_neg (by simpa using hfc)]
      constructor
      · intro hcontra
        exact absurd rfl hcontra
      · rintro ⟨p, hp⟩
        exact absurd hfc ((find_cycle_ne_nil_iff _ i).mpr ⟨p, hp⟩)
    · rw [if_pos hfc]
      constructor
      · intro _
        exact (find_cycle_ne_nil_iff _ i).mp hfc
      · intro _ hcontra
        exact Option.noConfusion (Option.some.inj hcontra)
  · rw [hsnd]
    constructor
    · intro hsome
      by_cases hall : ∀ i < cs.length, find_cycle (compute_graph cs) i = []
      · exact hcond.mp hall
      · rw [if_neg hall] at hsome
        exact Option.noConfusion hsome
    · intro hno
      rw [if_pos (hcond.mpr hno)]
  · rw [hsnd]
    constructor
    · intro hnone
      by_cases hall : ∀ i < cs.length, find_cycle (compute_graph cs) i = []
      · rw [if_pos hall] at hnone
        exact Option.noConfusion hnone
      · push_neg at hall
        obtain ⟨i, hi, hne⟩ := hall
        exact ⟨i, hi, (find_cycle_ne_nil_iff _ i).mp hne⟩
    · rintro ⟨i, hi, p, hp⟩
      rw [if_neg]
      intro hall
      have := (mem_find_cycle_iff _ i p).mpr hp
      rw [hall i hi] at this
      exact absurd this (List.not_mem_nil p)

/-- C4 witness: the spec §8 two-section paradox — each section names the
other — marks section 1 with the rendered paradox text and returns no
graph. -/
theorem claim_C4_witness :
    ((mark_cycles pair_cycle_constraints).1)[0]?.map Constraints.paradox_error
      = some (some (render_cycles
          (find_cycle (compute_graph pair_cycle_constraints) 0)))
    ∧ (mark_cycles pair_cycle_constraints).2 = none :=
  ⟨by
      have h := (claim_C4_mark_cycles pair_cycle_constraints).1 0 (by decide)
      rw [h, if_pos (by decide)],
    (claim_C4_mark_cycles pair_cycle_constraints).2.2.2.mpr
      ⟨0, by decide, [0, 1, 0],
        (mem_find_cycle_iff _ 0 [0, 1, 0]).mp (by decide)⟩⟩

theorem fixed_first_edge_mem (cs : List Constraints)
    (hfix : cs.headI.fixed = true) (j : Nat) (h1 : 1 ≤ j)
    (h2 : j < cs.length) : (0, j) ∈ (compute_graph cs).edges := by
  have hne : cs ≠ [] := by
    intro h
    subst h
    simp at h2
  obtain ⟨c0, t, rfl⟩ := List.exists_cons_of_ne_nil hne
  rw [mem_compute_graph_iff]
  refine ⟨0, c0, by simp, ?_⟩
  rw [mem_step_pairs_iff]
  exact Or.inl ⟨rfl, by simpa using hfix, rfl, h1, h2⟩

theorem fixed_last_edge_mem (cs : List Constraints)
    (hfix : (cs.getLastD default).fixed = true) (j : Nat)
    (hj : j < cs.length - 1) : (j, cs.length - 1) ∈ (compute_graph cs).edges := by
  rw [mem_compute_graph_iff]
  refine ⟨cs.length - 1, cs.get ⟨cs.length - 1, by omega⟩,
    List.getElem?_eq_getElem (by omega), ?_⟩
  rw [mem_step_pairs_iff]
  exact Or.inr (Or.inl ⟨rfl, hfix, rfl, hj⟩)

/-- C1: for every wellformed cycle-free precedence graph and every
sequence of random root choices, any index list `shuffle` produces is a
valid linear extension: for every edge `(u, v)` of the graph, `u`'s
output position is strictly below `v`'s. -/
theorem claim_C1_linear_extension (g : Graph) (picks out : List Nat)
    (hwf : g.WF) (hcyc : ∀ v < g.nodeCount, find_cycle g v = [])
    (hout : shuffle g picks = some out) :
    ∀ u v, (u, v) ∈ g.edges → out.indexOf u < out.indexOf v := by
  obtain ⟨out2, h1, _, h3⟩ := shuffle_spec g hwf hcyc picks
  rw [hout] at h1
  injection h1 with h1
  subst h1
  exact h3

/-- C1 witness: on the two-section chain (section 1 before section 2),
the shuffle with choice oracle `[0, 0]` emits `[0, 1]`, and the single
edge `(0, 1)` is respected. -/
theorem claim_C1_witness :
    shuffle (compute_graph chain_constraints) [0, 0] = some [0, 1]
    ∧ [0, 1].indexOf 0 < [0, 1].indexOf 1 :=
  ⟨by decide,
    claim_C1_linear_extension (compute_graph chain_constraints) [0, 0]
      [0, 1] (by decide) (by decide) (by decide) 0 1 (by decide)⟩

/-- C2: on every wellformed cycle-free N-vertex precedence graph, the
orderer terminates with an answer after exactly N removal steps (one
emitted index per step, so the output has length N) and the output is a
permutation of `0 .. N-1`: it contains each index exactly once. -/
theorem claim_C2_permutation (g : Graph) (picks : List Nat) (hwf : g.WF)
    (hcyc : ∀ v < g.nodeCount, find_cycle g v = []) :
    ∃ out, shuffle g picks = some out ∧ out.length = g.nodeCount
      ∧ out.Perm (List.range g.nodeCount) := by
  obtain ⟨out, h1, h2, _⟩ := shuffle_spec g hwf hcyc picks
  exact ⟨out, h1, h2.length_eq.trans (List.length_range _), h2⟩

/-- C2 witness: the two-section chain shuffles to a length-2 permutation
of `0 .. 1`. -/
theorem claim_C2_witness :
    ∃ out, shuffle (compute_graph chain_constraints) [0, 0] = some out
      ∧ out.length = (compute_graph chain_constraints).nodeCount
      ∧ out.Perm (List.range (compute_graph chain_constraints).nodeCount) :=
  claim_C2_permutation (compute_graph chain_constraints) [0, 0]
    (by decide) (by decide)

/-- C8: on a wellformed cycle-free graph the shuffle loop never reaches
the internal-error branch: whenever vertices remain the root set is
non-empty (shown for the initial state, and for every state by the same
`exists_root` invariant the totality proof threads through the loop), so
the unwrap of the first shuffled root never fails and `shuffle` answers
`some` for every choice sequence. -/
theorem claim_C8_roots_nonempty (g : Graph) (hwf : g.WF)
    (hcyc : ∀ v < g.nodeCount, find_cycle g v = []) :
    (∀ picks, (shuffle g picks).isSome = true)
    ∧ (g.nodeCount ≠ 0
        → shuffle_roots (List.range g.nodeCount) g.edges ≠ []) := by
  constructor
  · intro picks
    obtain ⟨out, h1, _, _⟩ := shuffle_spec g hwf hcyc picks
    rw [h1]
    rfl
  · intro hn
    refine exists_root (List.range g.nodeCount) g.edges
      (by simpa using hn) ?_ (acyclic_of_find_cycle_empty g hwf hcyc)
    intro e he
    exact List.mem_range.mpr (hwf e he).1

/-- C8 witness: on the two-section chain the shuffle succeeds and the
initial root set is non-empty. -/
theorem claim_C8_witness :
    (shuffle (compute_graph chain_constraints) [1, 1]).isSome = true
    ∧ shuffle_roots
        (List.range (compute_graph chain_constraints).nodeCount)
        (compute_graph chain_constraints).edges ≠ [] :=
  ⟨(claim_C8_roots_nonempty (compute_graph chain_constraints)
      (by decide) (by decide)).1 [1, 1],
   (claim_C8_roots_nonempty (compute_graph chain_constraints)
      (by decide) (by decide)).2 (by decide)⟩

/-- C7: for a constraint list with at least two sections, in-range
references, and a cycle-free precedence graph, every ordering the shuffle
can produce puts section index 0 first when the first constraint is
fixed, and section index N-1 last when the last constraint is fixed. -/
theorem claim_C7_fixed_positions (cs : List Constraints)
    (picks out : List Nat) (hN : 2 ≤ cs.length)
    (hrange : ∀ c ∈ cs, ∀ r ∈ c.before, 1 ≤ r ∧ r ≤ cs.length)
    (hcyc : ∀ v < cs.length, find_cycle (compute_graph cs) v = [])
    (hout : shuffle (compute_graph cs) picks = some out) :
    (cs.headI.fixed = true → out.head? = some 0)
    ∧ ((cs.getLastD default).fixed = true
        → out.getLast? = some (cs.length - 1)) := by
  have hwf := compute_graph_wf cs hrange
  have hcyc2 : ∀ v < (compute_graph cs).nodeCount,
      find_cycle (compute_graph cs) v = [] := by
    rw [nodeCount_compute_graph]
    exact hcyc
  obtain ⟨out2, h1, h2, h3⟩ := shuffle_spec (compute_graph cs) hwf hcyc2 picks
  rw [hout] at h1
  injection h1 with h1
  subst h1
  rw [nodeCount_compute_graph] at h2
  constructor
  · intro hfix
    refine perm_range_head_eq_zero out cs.length h2 hN ?_
    intro j hj1 hj2
    exact h3 0 j (fixed_first_edge_mem cs hfix j hj1 hj2)
  · intro hfix
    refine perm_range_getLast_eq out cs.length h2 hN ?_
    intro j hj
    exact h3 j (cs.length - 1) (fixed_last_edge_mem cs hfix j hj)

/-- C7 witness: four sections, first and last fixed, shuffled with choice
oracle `[0, 0, 0, 0]`: the output `[0, 1, 2, 3]` starts with 0 and ends
with 3. -/
theorem claim_C7_witness :
    shuffle (compute_graph fixed_four_constraints) [0, 0, 0, 0]
      = some [0, 1, 2, 3]
    ∧ [0, 1, 2, 3].head? = some 0
    ∧ [0, 1, 2, 3].getLast? = some (fixed_four_constraints.length - 1) :=
  ⟨by decide,
    (claim_C7_fixed_positions fixed_four_constraints [0, 0, 0, 0]
      [0, 1, 2, 3] (by decide) (by decide) (by decide) (by decide)).1
      (by decide),
    (claim_C7_fixed_positions fixed_four_constraints [0, 0, 0, 0]
      [0, 1, 2, 3] (by decide) (by decide) (by decide) (by decide)).2
      (by decide)⟩


/-- C9 counterexample: the claim says every parsed positive integer is
kept in `before`, "out-of-range or not"; but `parse::<usize>` fails on
overflow and `unwrap_or_default` turns the token into 0, which the
filter then discards. The pure-ASCII buffer of twenty-six nines matches
the grammar and is marked valid, its token value is positive and above
`usize::MAX`, yet `before` comes back empty on both the 64-bit and the
32-bit build. -/
theorem claim_C9_counterexample :
    sections_regex_matches Char.isDigit
        "99999999999999999999999999".data = true
    ∧ (validate_buffer Char.isDigit USIZE_MAX_64 default
        "99999999999999999999999999").text_buffer_is_valid = true
    ∧ digits_to_nat
        (trim_chars "99999999999999999999999999".data) ≠ 0
    ∧ USIZE_MAX_64 < digits_to_nat
        (trim_chars "99999999999999999999999999".data)
    ∧ (validate_buffer Char.isDigit USIZE_MAX_64 default
        "99999999999999999999999999").before = []
    ∧ (validate_buffer Char.isDigit USIZE_MAX_32 default
        "99999999999999999999999999").before = [] := by
  decide

/-- C9 amended: for any digit class `digit` that is disjoint from
Unicode White_Space and never matches a comma (true of the regex
crate's `\d`, i.e. `\p{Nd}`, in every Unicode version), and any usize
bound, the syntax validator accepts exactly the strings of the §4.5
grammar (optionally empty; otherwise comma-separated digit tokens with
optional whitespace around each token); on acceptance `before` holds,
in order, the value of every token that parses as an in-range usize
and is non-zero — a token whose value is 0 or exceeds `usizeMax` falls
back to the default 0 and is discarded; on rejection `before` is empty
and the constraint is marked invalid. -/
theorem claim_C9_amended_validator (digit : Char → Bool) (usizeMax : Nat)
    (c : Constraints) (s : String)
    (hW : ∀ ch : Char, digit ch = true → rust_is_whitespace ch = false)
    (hC : ∀ ch : Char, digit ch = true → ch ≠ ',') :
    (sections_regex_matches digit s.data = true
      ↔ SpecSectionsList digit s.data)
    ∧ ((validate_buffer digit usizeMax c s).text_buffer_is_valid
        = sections_regex_matches digit s.data)
    ∧ (∀ toks : List (List Char), toks ≠ []
        → s.data = List.intercalate [','] toks
        → (∀ t ∈ toks, SpecToken digit t)
        → (validate_buffer digit usizeMax c s).before
            = ((toks.map fun t =>
                  if (trim_chars t).all Char.isDigit
                      ∧ digits_to_nat (trim_chars t) ≤ usizeMax
                    then digits_to_nat (trim_chars t) else 0).filter
                fun n => n ≠ 0))
    ∧ (sections_regex_matches digit s.data = false
        → (validate_buffer digit usizeMax c s).before = []
          ∧ (validate_buffer digit usizeMax c s).text_buffer_is_valid
              = false) := by
  refine ⟨sections_regex_matches_iff digit s.data hW hC, ?_, ?_, ?_⟩
  · unfold validate_buffer
    by_cases h : sections_regex_matches digit s.data = true
    · rw [if_pos h, h]
    · rw [if_neg h]
      rw [Bool.not_eq_true] at h
      rw [h]
  · intro toks htne hdec htok
    have hmatch : sections_regex_matches digit s.data = true :=
      (sections_regex_matches_iff digit s.data hW hC).mpr
        (Or.inr ⟨toks, htne, hdec, htok⟩)
    unfold validate_buffer
    rw [if_pos hmatch]
    show parse_sections usizeMax s.data = _
    rw [hdec]
    exact parse_sections_eq_tokens digit usizeMax toks hW hC htok htne
  · intro h
    unfold validate_buffer
    rw [if_neg (by simp [h])]
    exact ⟨rfl, rfl⟩

/-- C9 amended witness: instantiated at the ASCII digit class and the
64-bit usize bound, the buffer `" 1 , 0 , 23 "` is accepted and parses
to `[1, 23]` (the literal 0 dropped, the in-range 23 kept); the buffer
`"1,,2"` is rejected, leaving `before` empty and the constraint
invalid. -/
theorem claim_C9_amended_witness :
    (validate_buffer Char.isDigit USIZE_MAX_64 default
        " 1 , 0 , 23 ").text_buffer_is_valid = true
    ∧ (validate_buffer Char.isDigit USIZE_MAX_64 default
        " 1 , 0 , 23 ").before = [1, 23]
    ∧ (validate_buffer Char.isDigit USIZE_MAX_64 default
        "1,,2").before = []
    ∧ (validate_buffer Char.isDigit USIZE_MAX_64 default
        "1,,2").text_buffer_is_valid = false := by
  have hW : ∀ ch : Char, ch.isDigit = true
      → rust_is_whitespace ch = false :=
    fun ch h => ascii_digit_not_rust_whitespace ch h
  have hC : ∀ ch : Char, ch.isDigit = true → ch ≠ ',' :=
    fun ch h => digit_ne_comma ch h
  have htoks : ∀ t ∈ [[' ', '1', ' '], [' ', '0', ' '],
      [' ', '2', '3', ' ']], SpecToken Char.isDigit t := by
    intro t ht
    rcases List.mem_cons.mp ht with rfl | ht
    · exact ⟨[' '], ['1'], [' '], rfl, by decide, by decide, by decide,
        by decide⟩
    rcases List.mem_cons.mp ht with rfl | ht
    · exact ⟨[' '], ['0'], [' '], rfl, by decide, by decide, by decide,
        by decide⟩
    rcases List.mem_cons.mp ht with rfl | ht
    · exact ⟨[' '], ['2', '3'], [' '], rfl, by decide, by decide,
        by decide, by decide⟩
    · exact absurd ht (List.not_mem_nil t)
  refine ⟨?_, ?_, ?_, ?_⟩
  · exact ((claim_C9_amended_validator Char.isDigit USIZE_MAX_64 default
      " 1 , 0 , 23 " hW hC).2.1).trans (by decide)
  · exact ((claim_C9_amended_validator Char.isDigit USIZE_MAX_64 default
      " 1 , 0 , 23 " hW hC).2.2.1
      [[' ', '1', ' '], [' ', '0', ' '], [' ', '2', '3', ' ']]
      (by decide) (by decide) htoks).trans (by decide)
  · exact ((claim_C9_amended_validator Char.isDigit USIZE_MAX_64 default
      "1,,2" hW hC).2.2.2 (by decide)).1
  · exact ((claim_C9_amended_validator Char.isDigit USIZE_MAX_64 default
      "1,,2" hW hC).2.2.2 (by decide)).2
